import Mathlib

/-!
Verification development for the notes-RAG pipeline
(`updated_math_rag.py`): incremental PDF indexing, context-window
retrieval, page rendering and math-delimiter repair.

The Python code is shallowly embedded: pure helpers become Lean
functions on `List Char` / `String`, the vector store becomes an
explicit list of page units, and the external capabilities
(PDF text extraction, rasterisation, the generative model call)
become explicit function parameters, so every theorem below can be
evaluated on concrete inputs.
-/

namespace NotesRag

/-! Section: Delimiter repair (`MathRAG._safe_latex_format`)

`re.sub(r'\\\[(.*?)\\\]', r'$$ \1 $$', text, flags=re.DOTALL)` followed by
`re.sub(r'\\\((.*?)\\\)', r'$ \1 $', text, flags=re.DOTALL)`.

A match of `\\X(.*?)\\Y` in DOTALL mode is: the leftmost occurrence of the
two-character opener, then the shortest stretch of arbitrary characters
(newlines included) up to the next occurrence of the two-character closer.
`splitFirst2 x y s` returns the part of `s` before the first occurrence of
the adjacent pair `[x, y]` together with the part after it (`none` when the
pair does not occur).  `re.sub` resumes scanning right after each
substituted match; the recursion is fuelled by the remaining length, which
strictly bounds the number of substitutions. -/

def splitFirst2 (x y : Char) : List Char → Option (List Char × List Char)
  | [] => none
  | [_] => none
  | c1 :: c2 :: rest =>
    if c1 = x ∧ c2 = y then some ([], rest)
    else (splitFirst2 x y (c2 :: rest)).map (fun pr => (c1 :: pr.1, pr.2))

def replaceDelimAux (x yo yc : Char) (L R : List Char) : Nat → List Char → List Char
  | 0, s => s
  | fuel + 1, s =>
    match splitFirst2 x yo s with
    | none => s
    | some (pre, rest1) =>
      match splitFirst2 x yc rest1 with
      | none => s
      | some (content, rest2) =>
        pre ++ L ++ content ++ R ++ replaceDelimAux x yo yc L R fuel rest2

def replaceDelim (x yo yc : Char) (L R : List Char) (s : List Char) : List Char :=
  replaceDelimAux x yo yc L R s.length s

/-- Source `_safe_latex_format`: first rewrite every `\[ ... \]` span to
`$$ ... $$`, then every `\( ... \)` span to `$ ... $`. -/
def safe_latex_format (s : String) : String :=
  let s1 := replaceDelim '\\' '[' ']' "$$ ".data " $$".data s.data
  let s2 := replaceDelim '\\' '(' ')' "$ ".data " $".data s1
  String.mk s2

/-! Section: Retrieval hits and the context window (`MathRAG.query`)

A retrieval hit is one entry of `results['metadatas'][0]`: the stored
metadata of a page unit, carrying `file`, `page` and `path`.  Page numbers
are integers because neighbour expansion produces `page - 1`, which may
be `-1`.  `unique_pages_map` is a Python dict keyed by `(file, page)`;
dicts preserve first-insertion order and `insertKey` only inserts when the
key is absent, exactly like `if key not in unique_pages_map`. -/

structure Hit where
  file : String
  page : Int
  path : String
deriving DecidableEq, Repr

def insertKey (m : List ((String × Int) × String)) (k : String × Int) (v : String) :
    List ((String × Int) × String) :=
  if k ∈ m.map Prod.fst then m else m ++ [(k, v)]

/-- One iteration of the hit loop: `for p_num in [current_page - 1,
current_page, current_page + 1]: if key not in unique_pages_map: ...`. -/
def addHit (m : List ((String × Int) × String)) (h : Hit) :
    List ((String × Int) × String) :=
  insertKey (insertKey (insertKey m (h.file, h.page - 1) h.path)
    (h.file, h.page) h.path) (h.file, h.page + 1) h.path

def buildPagesMap (hits : List Hit) : List ((String × Int) × String) :=
  hits.foldl addHit []

/-- Python's `<` on strings: lexicographic comparison of code points. -/
def strLt (a b : String) : Prop :=
  List.Lex (fun c d : Char => c < d) a.data b.data

instance : DecidableRel strLt := fun a b =>
  inferInstanceAs (Decidable (List.Lex (fun c d : Char => c < d) a.data b.data))

theorem strLt_trans {a b c : String} (h1 : strLt a b) (h2 : strLt b c) :
    strLt a c :=
  IsTrans.trans a.data b.data c.data h1 h2

/-- Python key function `lambda x: (x[0], x[1])`: lexicographic order on
(file name, page number). -/
def keyLE (a b : String × Int) : Prop :=
  strLt a.1 b.1 ∨ (a.1 = b.1 ∧ a.2 ≤ b.2)

instance : DecidableRel keyLE := fun a b =>
  inferInstanceAs (Decidable (strLt a.1 b.1 ∨ (a.1 = b.1 ∧ a.2 ≤ b.2)))

instance : IsTotal (String × Int) keyLE :=
  ⟨fun a b => by
    rcases @trichotomous _ (List.Lex (fun c d : Char => c < d)) _
        a.1.data b.1.data with h | h | h
    · exact Or.inl (Or.inl h)
    · rcases le_total a.2 b.2 with h2 | h2
      · exact Or.inl (Or.inr ⟨String.ext h, h2⟩)
      · exact Or.inr (Or.inr ⟨String.ext h.symm, h2⟩)
    · exact Or.inr (Or.inl h)⟩

instance : IsTrans (String × Int) keyLE :=
  ⟨fun a b c hab hbc => by
    rcases hab with h1 | ⟨e1, l1⟩
    · rcases hbc with h2 | ⟨e2, _⟩
      · exact Or.inl (strLt_trans h1 h2)
      · exact Or.inl (e2 ▸ h1)
    · rcases hbc with h2 | ⟨e2, l2⟩
      · exact Or.inl (e1 ▸ h2)
      · exact Or.inr ⟨e1.trans e2, l1.trans l2⟩⟩

/-- Source `sorted(unique_pages_map.keys(), key=lambda x: (x[0], x[1]))`:
Python's stable sort, modelled by insertion sort (also stable). -/
def sortedCandidates (hits : List Hit) : List (String × Int) :=
  List.insertionSort keyLE ((buildPagesMap hits).map Prod.fst)

/-- Source `final_keys = sorted_keys[:MAX_IMAGES]` with `MAX_IMAGES = 9`. -/
def contextWindow (hits : List Hit) : List (String × Int) :=
  (sortedCandidates hits).take 9

/-! Section: Page rendering (`MathRAG._pdf_page_to_base64_image`)

External PDF capabilities are explicit parameters: `pageCount path` is
`len(fitz.open(path))` (`none` when opening raises), and `raster path p`
is the base64 PNG of page `p` (`none` when rasterising raises).  The
function's own guard `if page_num < 0 or page_num >= len(doc): return
None` is the code under verification. -/

def pdf_page_to_base64_image (pageCount : String → Option Nat)
    (raster : String → Int → Option String) (path : String) (p : Int) :
    Option String :=
  match pageCount path with
  | none => none
  | some n => if p < 0 ∨ (n : Int) ≤ p then none else raster path p

/-- Lookup `unique_pages_map[(filename, p_num)]` (the key is always present when
taken from the map's own key list). -/
def lookupPath (m : List ((String × Int) × String)) (k : String × Int) : String :=
  match m.find? (fun e => e.1 = k) with
  | some e => e.2
  | none => ""

/-- The image-fetch loop over `final_keys`: render each page, silently
dropping pages with no image, and caption kept pages with the 1-indexed
page number. -/
def fetchImages (render : String → Int → Option String)
    (m : List ((String × Int) × String)) :
    List (String × Int) → List String × List String
  | [] => ([], [])
  | (f, p) :: rest =>
    let (imgs, caps) := fetchImages render m rest
    match render (lookupPath m (f, p)) p with
    | some img => (img :: imgs, (s!"From {f}, Page {p + 1}") :: caps)
    | none => (imgs, caps)

/-! Section: Answer synthesis (`MathRAG._ask_vision_model`)

The generative call is an explicit outcome parameter `gen` (`ok raw` for a
successful completion, `error e` for a raised exception).  The returned
`Bool` records whether the generative capability was invoked. -/

def ask_vision_model (gen : Except String String) (images : List String)
    (contextDesc : List String) : (String × List String × List String) × Bool :=
  if images.isEmpty then (("I couldn't find any relevant notes.", [], []), false)
  else
    match gen with
    | .ok raw => ((safe_latex_format raw, images, contextDesc), true)
    | .error e => (("Error contacting OpenAI: " ++ e, [], []), true)

/-- Source `MathRAG.query`, given the search capability's hit list for the
question.  Returns the answer triple and whether the generative call was
made. -/
def query (gen : Except String String) (render : String → Int → Option String)
    (hits : List Hit) : (String × List String × List String) × Bool :=
  let m := buildPagesMap hits
  let (imgs, caps) := fetchImages render m (contextWindow hits)
  ask_vision_model gen imgs caps

/-! Section: Page extraction and indexing
(`MathRAG._process_single_pdf`, `MathRAG.load_and_index_pdfs`)

The Chroma collection is modelled as an explicit list of page units in
insertion order; `collection.delete(where={"file": filename})` is a
filter and `collection.add` an append.  A local PDF file is its name,
the list of raw per-page texts returned by the extraction capability,
and its content fingerprint (`_get_file_hash`). -/

structure PageUnit where
  /-- Chroma id `f"{filename}_p{page_num}"`. -/
  uid : String
  text : String
  file : String
  page : Nat
  path : String
  hash : String
deriving DecidableEq, Repr

structure PdfFile where
  name : String
  pages : List String
  hash : String
deriving DecidableEq, Repr

/-- Whitespace as used by Python's `str.split()` (modelled on the ASCII
whitespace characters). -/
def pyIsSpace (c : Char) : Bool :=
  c = ' ' ∨ c = '\t' ∨ c = '\n' ∨ c = '\r' ∨ c = '\x0b' ∨ c = '\x0c'

/-- Normalization `" ".join(text.split())`: split on whitespace runs, drop empty pieces,
rejoin with single spaces. -/
def normalizeText (s : String) : String :=
  String.mk (List.intercalate [' ']
    ((s.data.splitOnP pyIsSpace).filter (fun w => ¬w.isEmpty)))

/-- The page loop of `_process_single_pdf`, with the running
`enumerate` counter explicit: skip pages whose normalized text is
shorter than 20 characters, otherwise emit one page unit. -/
def processPages (name path hash : String) : Nat → List String → List PageUnit
  | _, [] => []
  | pageNum, raw :: rest =>
    let clean := normalizeText raw
    if clean.length < 20 then processPages name path hash (pageNum + 1) rest
    else
      ⟨name ++ "_p" ++ toString pageNum, clean, name, pageNum, path, hash⟩ ::
        processPages name path hash (pageNum + 1) rest

def process_single_pdf (folder : String) (f : PdfFile) : List PageUnit :=
  processPages f.name (folder ++ "/" ++ f.name) f.hash 0 f.pages

/-- The dict `indexed_map` built from the existing metadatas
(`indexed_map[meta['file']] = meta.get('hash', '')`): iterating the
stored metadatas in insertion order with last-write-wins is looking up
the hash of the last stored unit of that file. -/
def indexedHash (index : List PageUnit) (n : String) : Option String :=
  ((index.filter (fun u => u.file = n)).getLast?).map (fun u => u.hash)

/-- The body of the `for filename in local_files` loop.  The decision
uses `index`, the collection contents read once before the loop, while
deletes and adds operate on the evolving collection `idx`. -/
def indexStep (folder : String) (index : List PageUnit)
    (idx : List PageUnit) (f : PdfFile) : List PageUnit :=
  match indexedHash index f.name with
  | none => idx ++ process_single_pdf folder f
  | some h =>
    if h = f.hash then idx
    else idx.filter (fun u => u.file ≠ f.name) ++ process_single_pdf folder f

/-- Source `load_and_index_pdfs`, applied to the folder's `.pdf` listing and the
current collection contents. -/
def load_and_index_pdfs (folder : String) (files : List PdfFile)
    (index : List PageUnit) : List PageUnit :=
  files.foldl (indexStep folder index) index

/-! Section: Properties of the context window -/

theorem insertKey_fst_nodup {m : List ((String × Int) × String)}
    {k : String × Int} {v : String} (h : (m.map Prod.fst).Nodup) :
    ((insertKey m k v).map Prod.fst).Nodup := by
  unfold insertKey
  by_cases hk : k ∈ m.map Prod.fst
  · simpa [hk] using h
  · simp [hk, List.nodup_append, h]

theorem addHit_fst_nodup {m : List ((String × Int) × String)} {h : Hit}
    (hm : (m.map Prod.fst).Nodup) :
    ((addHit m h).map Prod.fst).Nodup :=
  insertKey_fst_nodup (insertKey_fst_nodup (insertKey_fst_nodup hm))

theorem foldl_addHit_fst_nodup :
    ∀ (hits : List Hit) (m : List ((String × Int) × String)),
      (m.map Prod.fst).Nodup → ((hits.foldl addHit m).map Prod.fst).Nodup
  | [], _, hm => hm
  | _ :: hits, _, hm => foldl_addHit_fst_nodup hits _ (addHit_fst_nodup hm)

theorem buildPagesMap_fst_nodup (hits : List Hit) :
    ((buildPagesMap hits).map Prod.fst).Nodup :=
  foldl_addHit_fst_nodup hits [] List.nodup_nil

theorem sortedCandidates_nodup (hits : List Hit) :
    (sortedCandidates hits).Nodup :=
  (List.perm_insertionSort keyLE _).symm.nodup (buildPagesMap_fst_nodup hits)

theorem sortedCandidates_sorted (hits : List Hit) :
    (sortedCandidates hits).Sorted keyLE :=
  List.sorted_insertionSort keyLE _

/-- C1: the context window built by `query` contains no duplicate
(document identifier, page number) pair, and iterating it yields entries
sorted ascending in the lexicographic (document identifier, page number)
order — it is sorted by key, not by relevance score. -/
theorem contextWindow_nodup_sorted (hits : List Hit) :
    (contextWindow hits).Nodup ∧ (contextWindow hits).Sorted keyLE :=
  ⟨(sortedCandidates_nodup hits).sublist (List.take_sublist 9 _),
   (sortedCandidates_sorted hits).sublist (List.take_sublist 9 _)⟩

/-- C2: the context window never exceeds 9 entries, and it is the cap
applied to the globally sorted candidate list: the first 9 keys of the
sorted order are kept (an initial segment) and the rest discarded. -/
theorem contextWindow_cap (hits : List Hit) :
    (contextWindow hits).length ≤ 9 ∧
      ∃ rest, sortedCandidates hits = contextWindow hits ++ rest :=
  ⟨List.length_take_le 9 _,
   ⟨(sortedCandidates hits).drop 9, (List.take_append_drop 9 _).symm⟩⟩

/-! Section: The delimiter-repair rewriting -/

theorem splitFirst2_eq_append (x y : Char) :
    ∀ (s pre post : List Char), splitFirst2 x y s = some (pre, post) →
      s = pre ++ x :: y :: post
  | [], _, _, h => by simp [splitFirst2] at h
  | [c], _, _, h => by simp [splitFirst2] at h
  | c1 :: c2 :: rest, pre, post, h => by
    by_cases hc : c1 = x ∧ c2 = y
    · simp only [splitFirst2, if_pos hc, Option.some.injEq, Prod.mk.injEq] at h
      rw [← h.1, ← h.2, hc.1, hc.2]
      rfl
    · simp only [splitFirst2, if_neg hc, Option.map_eq_some'] at h
      obtain ⟨pr, hpr, hmk⟩ := h
      have := splitFirst2_eq_append x y (c2 :: rest) pr.1 pr.2 (by rw [hpr])
      cases hmk
      rw [List.cons_append, ← this]

theorem splitFirst2_length {x y : Char} {s pre post : List Char}
    (h : splitFirst2 x y s = some (pre, post)) :
    s.length = pre.length + post.length + 2 := by
  have := congrArg List.length (splitFirst2_eq_append x y s pre post h)
  simp at this
  omega

theorem splitFirst2_eq_none {x y : Char} {s : List Char}
    (h : ¬([x, y] <:+: s)) : splitFirst2 x y s = none := by
  cases hs : splitFirst2 x y s with
  | none => rfl
  | some pr =>
    exact absurd ⟨pr.1, pr.2, by
      rw [splitFirst2_eq_append x y s pr.1 pr.2 hs]; simp⟩ h

theorem splitFirst2_append {x y : Char} (hxy : x ≠ y) :
    ∀ (pre post : List Char), ¬([x, y] <:+: pre) →
      splitFirst2 x y (pre ++ x :: y :: post) = some (pre, post)
  | [], post, _ => by simp [splitFirst2]
  | [c], post, _ => by
    have hc : ¬(c = x ∧ x = y) := fun hc => hxy hc.2
    simp [splitFirst2, hc, hxy]
  | c1 :: c2 :: pre, post, h => by
    have hc : ¬(c1 = x ∧ c2 = y) := fun hc =>
      h ⟨[], pre, by rw [← hc.1, ← hc.2]; rfl⟩
    have htail : ¬([x, y] <:+: c2 :: pre) := fun hin =>
      h (hin.trans (List.suffix_cons c1 (c2 :: pre)).isInfix)
    have := splitFirst2_append hxy (c2 :: pre) post htail
    simp only [List.cons_append] at this ⊢
    simp only [splitFirst2, if_neg hc, this, Option.map_some']

/-- Fuel irrelevance: any fuel at least the string length computes the
same result, since each substitution consumes at least four characters. -/
theorem replaceDelimAux_fuel (x yo yc : Char) (L R : List Char) :
    ∀ (f1 : Nat), ∀ (f2 : Nat) (s : List Char), s.length ≤ f1 → s.length ≤ f2 →
      replaceDelimAux x yo yc L R f1 s = replaceDelimAux x yo yc L R f2 s := by
  intro f1
  induction f1 with
  | zero =>
    intro f2 s h1 _
    have hs : s = [] := List.eq_nil_of_length_eq_zero (Nat.le_zero.mp h1)
    subst hs
    cases f2 with
    | zero => rfl
    | succ b => rfl
  | succ a ih =>
    intro f2 s h1 h2
    cases f2 with
    | zero =>
      have hs : s = [] := List.eq_nil_of_length_eq_zero (Nat.le_zero.mp h2)
      subst hs
      rfl
    | succ b =>
      cases hs1 : splitFirst2 x yo s with
      | none => simp only [replaceDelimAux, hs1]
      | some pr1 =>
        obtain ⟨pre, rest1⟩ := pr1
        cases hs2 : splitFirst2 x yc rest1 with
        | none => simp only [replaceDelimAux, hs1, hs2]
        | some pr2 =>
          obtain ⟨content, rest2⟩ := pr2
          have l1 := splitFirst2_length hs1
          have l2 := splitFirst2_length hs2
          simp only [replaceDelimAux, hs1, hs2]
          rw [ih b rest2 (by omega) (by omega)]

/-- The recursion of `re.sub` with the fuel hidden: find the leftmost
opener, the nearest closer after it, substitute, continue after the
match. -/
theorem replaceDelim_eq (x yo yc : Char) (L R s : List Char) :
    replaceDelim x yo yc L R s =
      match splitFirst2 x yo s with
      | none => s
      | some (pre, rest1) =>
        match splitFirst2 x yc rest1 with
        | none => s
        | some (content, rest2) =>
          pre ++ L ++ content ++ R ++ replaceDelim x yo yc L R rest2 := by
  unfold replaceDelim
  cases hs1 : splitFirst2 x yo s with
  | none =>
    cases hl : s.length with
    | zero => simp only [replaceDelimAux, hs1]
    | succ n => simp only [replaceDelimAux, hs1]
  | some pr1 =>
    obtain ⟨pre, rest1⟩ := pr1
    have l1 := splitFirst2_length hs1
    obtain ⟨n, hn⟩ : ∃ n, s.length = n + 1 := ⟨s.length - 1, by omega⟩
    rw [hn]
    cases hs2 : splitFirst2 x yc rest1 with
    | none => simp only [replaceDelimAux, hs1, hs2]
    | some pr2 =>
      obtain ⟨content, rest2⟩ := pr2
      have l2 := splitFirst2_length hs2
      simp only [replaceDelimAux, hs1, hs2]
      rw [replaceDelimAux_fuel x yo yc L R n rest2.length rest2 (by omega) le_rfl]

/-- A string with no occurrence of the opening delimiter passes through
the substitution unchanged. -/
theorem replaceDelim_of_no_open {x yo : Char} {s : List Char}
    (h : ¬([x, yo] <:+: s)) (yc : Char) (L R : List Char) :
    replaceDelim x yo yc L R s = s := by
  rw [replaceDelim_eq, splitFirst2_eq_none h]

/-- One substitution step on an explicitly delimited span: `a` holds no
opener (leftmost match), `b` holds no closer (non-greedy content, may
contain newlines), and rewriting continues after the span. -/
theorem replaceDelim_span {x yo yc : Char} (hxyo : x ≠ yo) (hxyc : x ≠ yc)
    (L R a b c : List Char) (ha : ¬([x, yo] <:+: a)) (hb : ¬([x, yc] <:+: b)) :
    replaceDelim x yo yc L R (a ++ x :: yo :: (b ++ x :: yc :: c)) =
      a ++ L ++ b ++ R ++ replaceDelim x yo yc L R c := by
  rw [replaceDelim_eq]
  simp only [splitFirst2_append hxyo a (b ++ x :: yc :: c) ha,
    splitFirst2_append hxyc b c hb]

/-- C4: the repair transform rewrites every `\[ ... \]` span to
`$$ ... $$` and every `\( ... \)` span to `$ ... $`, non-greedily (the
content holds no closer) and across newlines (the content is an
arbitrary character list); on `Solve \[ x^2 = 4 \]` it returns exactly
`Solve $$  x^2 = 4  $$`, and on `the value \( x \)` exactly
`the value $  x  $`. -/
theorem delimiter_repair :
    (∀ a b c : List Char, ¬(['\\', '['] <:+: a) → ¬(['\\', ']'] <:+: b) →
      replaceDelim '\\' '[' ']' "$$ ".data " $$".data
          (a ++ '\\' :: '[' :: (b ++ '\\' :: ']' :: c)) =
        a ++ "$$ ".data ++ b ++ " $$".data ++
          replaceDelim '\\' '[' ']' "$$ ".data " $$".data c)
    ∧ (∀ a b c : List Char, ¬(['\\', '('] <:+: a) → ¬(['\\', ')'] <:+: b) →
      replaceDelim '\\' '(' ')' "$ ".data " $".data
          (a ++ '\\' :: '(' :: (b ++ '\\' :: ')' :: c)) =
        a ++ "$ ".data ++ b ++ " $".data ++
          replaceDelim '\\' '(' ')' "$ ".data " $".data c)
    ∧ safe_latex_format "Solve \\[ x^2 = 4 \\]" = "Solve $$  x^2 = 4  $$"
    ∧ safe_latex_format "the value \\( x \\)" = "the value $  x  $" :=
  ⟨fun a b c ha hb => replaceDelim_span (by decide) (by decide) _ _ a b c ha hb,
   fun a b c ha hb => replaceDelim_span (by decide) (by decide) _ _ a b c ha hb,
   by decide, by decide⟩

/-- Closed instance of `delimiter_repair`: the block-form substitution
applied to the scenario input, with the side conditions discharged by
evaluation. -/
theorem delimiter_repair_witness :
    replaceDelim '\\' '[' ']' "$$ ".data " $$".data
        ("Solve ".data ++ '\\' :: '[' :: (" x^2 = 4 ".data ++ '\\' :: ']' :: [])) =
      "Solve ".data ++ "$$ ".data ++ " x^2 = 4 ".data ++ " $$".data ++
        replaceDelim '\\' '[' ']' "$$ ".data " $$".data [] :=
  delimiter_repair.1 "Solve ".data " x^2 = 4 ".data [] (by decide) (by decide)

/-- C10: the repair transform is the identity on any string containing
none of the four two-character delimiter sequences; plain prose,
parentheses and already-normalized dollar math pass through unchanged. -/
theorem safe_latex_format_identity (s : String)
    (h1 : ¬(['\\', '['] <:+: s.data)) (_h2 : ¬(['\\', ']'] <:+: s.data))
    (h3 : ¬(['\\', '('] <:+: s.data)) (_h4 : ¬(['\\', ')'] <:+: s.data)) :
    safe_latex_format s = s := by
  show String.mk (replaceDelim '\\' '(' ')' "$ ".data " $".data
    (replaceDelim '\\' '[' ']' "$$ ".data " $$".data s.data)) = s
  rw [replaceDelim_of_no_open h1, replaceDelim_of_no_open h3]

/-- Closed instance of `safe_latex_format_identity` on prose with plain
parentheses and dollar-delimited math. -/
theorem safe_latex_format_identity_witness :
    safe_latex_format "plain (x) text and $y^2$" = "plain (x) text and $y^2$" :=
  safe_latex_format_identity "plain (x) text and $y^2$"
    (by decide) (by decide) (by decide) (by decide)

/-! Section: Neighbour expansion and the page renderer's bounds check -/

theorem insertKey_mem_fst {m : List ((String × Int) × String)}
    {k' k : String × Int} {v : String} :
    k' ∈ (insertKey m k v).map Prod.fst ↔ k' ∈ m.map Prod.fst ∨ k' = k := by
  unfold insertKey
  by_cases hk : k ∈ m.map Prod.fst
  · rw [if_pos hk]
    exact ⟨Or.inl, fun h => h.elim id (fun e => e ▸ hk)⟩
  · rw [if_neg hk]
    simp

theorem addHit_mem_fst {m : List ((String × Int) × String)} {k : String × Int}
    {h : Hit} :
    k ∈ (addHit m h).map Prod.fst ↔ k ∈ m.map Prod.fst ∨
      k = (h.file, h.page - 1) ∨ k = (h.file, h.page) ∨ k = (h.file, h.page + 1) := by
  unfold addHit
  rw [insertKey_mem_fst, insertKey_mem_fst, insertKey_mem_fst]
  tauto

theorem foldl_addHit_mem_fst :
    ∀ (hits : List Hit) (m : List ((String × Int) × String)) (k : String × Int),
      (k ∈ (hits.foldl addHit m).map Prod.fst ↔ k ∈ m.map Prod.fst ∨
        ∃ h ∈ hits, k = (h.file, h.page - 1) ∨ k = (h.file, h.page) ∨
          k = (h.file, h.page + 1))
  | [], m, k => by simp
  | hit :: hits, m, k => by
    rw [List.foldl_cons, foldl_addHit_mem_fst hits _ k, addHit_mem_fst]
    simp only [List.mem_cons]
    constructor
    · rintro ((hm | hk) | ⟨h, hh, hk⟩)
      · exact Or.inl hm
      · exact Or.inr ⟨hit, Or.inl rfl, hk⟩
      · exact Or.inr ⟨h, Or.inr hh, hk⟩
    · rintro (hm | ⟨h, rfl | hh, hk⟩)
      · exact Or.inl (Or.inl hm)
      · exact Or.inl (Or.inr hk)
      · exact Or.inr ⟨h, hh, hk⟩

/-- The candidate keys produced by the hit loop are exactly the three
neighbourhood pages of each hit, tagged with that hit's document. -/
theorem buildPagesMap_mem_fst (hits : List Hit) (k : String × Int) :
    k ∈ (buildPagesMap hits).map Prod.fst ↔
      ∃ h ∈ hits, k = (h.file, h.page - 1) ∨ k = (h.file, h.page) ∨
        k = (h.file, h.page + 1) := by
  rw [buildPagesMap, foldl_addHit_mem_fst]
  simp

/-- Concrete renderer for the neighbour-expansion scenario: "calc.pdf"
has pages 0..10, and rasterising any in-range page succeeds. -/
def calcPageCount : String → Option Nat :=
  fun s => if s = "calc.pdf" then some 11 else none

def calcRaster : String → Int → Option String :=
  fun path p => some (path ++ "#" ++ toString p)

def calcRender : String → Int → Option String :=
  pdf_page_to_base64_image calcPageCount calcRaster

/-- C3: each top-K hit on page `p` contributes exactly the candidate
pages `p - 1`, `p`, `p + 1` for its document; the renderer returns no
image for the invalid page `-1`; a hit on page 5 of "calc.pdf" yields
the candidate window pages 4, 5, 6; and a hit on page 0 of "calc.pdf"
(pages 0..10) yields candidates including page `-1`, which is dropped,
so only pages 0 and 1 contribute images (captions are 1-indexed). -/
theorem neighbor_expansion :
    (∀ (pc : String → Option Nat) (ra : String → Int → Option String)
      (path : String), pdf_page_to_base64_image pc ra path (-1) = none)
    ∧ (∀ (hits : List Hit) (k : String × Int),
        k ∈ (buildPagesMap hits).map Prod.fst ↔
          ∃ h ∈ hits, k = (h.file, h.page - 1) ∨ k = (h.file, h.page) ∨
            k = (h.file, h.page + 1))
    ∧ contextWindow [⟨"calc.pdf", 5, "calc.pdf"⟩] =
        [("calc.pdf", 4), ("calc.pdf", 5), ("calc.pdf", 6)]
    ∧ query (.ok "ans") calcRender [⟨"calc.pdf", 0, "calc.pdf"⟩] =
        (("ans", ["calc.pdf#0", "calc.pdf#1"],
          ["From calc.pdf, Page 1", "From calc.pdf, Page 2"]), true) := by
  refine ⟨fun pc ra path => ?_, buildPagesMap_mem_fst, by decide, by decide⟩
  unfold pdf_page_to_base64_image
  cases pc path with
  | none => rfl
  | some n => exact if_pos (Or.inl (by decide))

/-- Closed instance of `neighbor_expansion`: the page-5 hit's candidate
set contains page 4, via the characterization applied at a concrete
input. -/
theorem neighbor_expansion_witness :
    ("calc.pdf", (4 : Int)) ∈
      (buildPagesMap [⟨"calc.pdf", 5, "calc.pdf"⟩]).map Prod.fst ∧
    calcRender "calc.pdf" (-1) = none :=
  ⟨(neighbor_expansion.2.1 [⟨"calc.pdf", 5, "calc.pdf"⟩] ("calc.pdf", 4)).mpr
      ⟨⟨"calc.pdf", 5, "calc.pdf"⟩, by decide, Or.inl (by decide)⟩,
   neighbor_expansion.1 calcPageCount calcRaster "calc.pdf"⟩

/-! Section: Empty retrieval -/

/-- C8: with an empty image list (in particular when the index holds no
page units and the search capability returns no hits) `query` returns the
fixed text with empty image and caption lists, and the generative
capability is never invoked (the invocation flag is `false`). -/
theorem query_empty_retrieval (gen : Except String String)
    (render : String → Int → Option String) (caps : List String) :
    query gen render [] =
        (("I couldn't find any relevant notes.", [], []), false) ∧
      ask_vision_model gen [] caps =
        (("I couldn't find any relevant notes.", [], []), false) :=
  ⟨rfl, rfl⟩

/-! Section: Page extraction: the minimum-length filter -/

theorem processPages_mem :
    ∀ (ps : List String) (n p h : String) (i : Nat) (u : PageUnit),
      u ∈ processPages n p h i ps →
        u.file = n ∧ u.hash = h ∧ u.path = p ∧ i ≤ u.page
  | [], _, _, _, _, u, hu => absurd hu (List.not_mem_nil u)
  | raw :: rest, n, p, h, i, u, hu => by
    simp only [processPages] at hu
    by_cases hlen : (normalizeText raw).length < 20
    · rw [if_pos hlen] at hu
      have := processPages_mem rest n p h (i + 1) u hu
      exact ⟨this.1, this.2.1, this.2.2.1, by omega⟩
    · rw [if_neg hlen, List.mem_cons] at hu
      rcases hu with rfl | hu
      · exact ⟨rfl, rfl, rfl, le_rfl⟩
      · have := processPages_mem rest n p h (i + 1) u hu
        exact ⟨this.1, this.2.1, this.2.2.1, by omega⟩

theorem processPages_filter_lt :
    ∀ (ps : List String) (n p h : String) (i j : Nat), j < i →
      (processPages n p h i ps).filter (fun u => u.page = j) = [] := by
  intro ps n p h i j hj
  rw [List.filter_eq_nil_iff]
  intro u hu
  have := (processPages_mem ps n p h i u hu).2.2.2
  simp only [decide_eq_true_eq]
  omega

theorem processPages_count :
    ∀ (ps : List String) (n p h : String) (i j : Nat) (hj : j < ps.length),
      ((processPages n p h i ps).filter (fun u => u.page = i + j)).length =
        if (normalizeText (ps.get ⟨j, hj⟩)).length < 20 then 0 else 1
  | [], _, _, _, _, j, hj => absurd hj (Nat.not_lt_zero j)
  | raw :: rest, n, p, h, i, 0, _ => by
    have htail : (processPages n p h (i + 1) rest).filter
        (fun u => u.page = i) = [] :=
      processPages_filter_lt rest n p h (i + 1) i (by omega)
    simp only [processPages, List.get, Nat.add_zero]
    by_cases hlen : (normalizeText raw).length < 20
    · rw [if_pos hlen, if_pos hlen, htail]
      rfl
    · rw [if_neg hlen, if_neg hlen, List.filter_cons]
      simp only [decide_True, if_true, htail]
      rfl
  | raw :: rest, n, p, h, i, j + 1, hj => by
    have hne : ¬(i = i + (j + 1)) := by omega
    have hstep : i + (j + 1) = (i + 1) + j := by omega
    have ih := processPages_count rest n p h (i + 1) j (by
      simpa using Nat.lt_of_succ_lt_succ hj)
    simp only [processPages, List.get]
    by_cases hlen : (normalizeText raw).length < 20
    · rw [if_pos hlen, hstep]
      exact ih
    · rw [if_neg hlen, List.filter_cons]
      simp only [hne, decide_False, if_false]
      rw [hstep]
      exact ih

/-- C7: during extraction of a document, a page whose
whitespace-collapsed text is shorter than 20 characters produces no page
unit, and a page with normalized length at least 20 produces exactly one
page unit. -/
theorem min_length_filter (folder : String) (f : PdfFile) (j : Nat)
    (hj : j < f.pages.length) :
    ((process_single_pdf folder f).filter (fun u => u.page = j)).length =
      if (normalizeText (f.pages.get ⟨j, hj⟩)).length < 20 then 0 else 1 := by
  have := processPages_count f.pages f.name (folder ++ "/" ++ f.name) f.hash 0 j hj
  simpa using this

/-- Closed instance of `min_length_filter` on a two-page document: the
short page yields no unit, the long page exactly one. -/
theorem min_length_filter_witness :
    ((process_single_pdf "my_notes"
        ⟨"a.pdf", ["short", "this page has plenty of text on it"], "h1"⟩).filter
      (fun u => u.page = 0)).length = 0 ∧
    ((process_single_pdf "my_notes"
        ⟨"a.pdf", ["short", "this page has plenty of text on it"], "h1"⟩).filter
      (fun u => u.page = 1)).length = 1 :=
  ⟨by
    have := min_length_filter "my_notes"
      ⟨"a.pdf", ["short", "this page has plenty of text on it"], "h1"⟩ 0 (by decide)
    rw [this]
    decide,
   by
    have := min_length_filter "my_notes"
      ⟨"a.pdf", ["short", "this page has plenty of text on it"], "h1"⟩ 1 (by decide)
    rw [this]
    decide⟩

/-! Section: Incremental indexing: change detection and idempotence -/

theorem process_single_pdf_mem {folder : String} {f : PdfFile} {u : PageUnit}
    (hu : u ∈ process_single_pdf folder f) : u.file = f.name ∧ u.hash = f.hash :=
  ⟨(processPages_mem f.pages f.name _ f.hash 0 u hu).1,
   (processPages_mem f.pages f.name _ f.hash 0 u hu).2.1⟩

theorem process_single_pdf_filter_self (folder : String) (f : PdfFile) :
    (process_single_pdf folder f).filter (fun u => u.file = f.name) =
      process_single_pdf folder f :=
  List.filter_eq_self.mpr (fun u hu => by
    simp [(process_single_pdf_mem hu).1])

theorem process_single_pdf_filter_ne {folder : String} {f : PdfFile}
    {n : String} (hn : n ≠ f.name) :
    (process_single_pdf folder f).filter (fun u => u.file = n) = [] :=
  List.filter_eq_nil_iff.mpr (fun u hu => by
    simp [(process_single_pdf_mem hu).1, Ne.symm hn])

theorem indexStep_none {folder : String} {index idx : List PageUnit}
    {f : PdfFile} (h : indexedHash index f.name = none) :
    indexStep folder index idx f = idx ++ process_single_pdf folder f := by
  unfold indexStep
  rw [h]

theorem indexStep_same {folder : String} {index idx : List PageUnit}
    {f : PdfFile} (h : indexedHash index f.name = some f.hash) :
    indexStep folder index idx f = idx := by
  unfold indexStep
  rw [h]
  exact if_pos rfl

theorem indexStep_diff {folder : String} {index idx : List PageUnit}
    {f : PdfFile} {hsh : String} (h : indexedHash index f.name = some hsh)
    (hne : hsh ≠ f.hash) :
    indexStep folder index idx f =
      idx.filter (fun u => u.file ≠ f.name) ++ process_single_pdf folder f := by
  unfold indexStep
  rw [h]
  exact if_neg hne

/-- Documents whose name never occurs in the remaining file list are left
untouched by the rest of the indexing pass. -/
theorem foldl_indexStep_filter_ne (folder : String) (index : List PageUnit) :
    ∀ (fs : List PdfFile) (J : List PageUnit) (n : String),
      n ∉ fs.map PdfFile.name →
      (fs.foldl (indexStep folder index) J).filter (fun u => u.file = n) =
        J.filter (fun u => u.file = n)
  | [], _, _, _ => rfl
  | f :: fs, J, n, hn => by
    have hfn : n ≠ f.name := fun e => hn (by simp [e])
    have hrec := foldl_indexStep_filter_ne folder index fs
      (indexStep folder index J f) n (fun hmem => hn (by simp [hmem]))
    rw [List.foldl_cons, hrec]
    cases hh : indexedHash index f.name with
    | none =>
      rw [indexStep_none hh, List.filter_append,
        process_single_pdf_filter_ne hfn, List.append_nil]
    | some hsh =>
      by_cases he : hsh = f.hash
      · subst he
        rw [indexStep_same hh]
      · rw [indexStep_diff hh he, List.filter_append,
          process_single_pdf_filter_ne hfn, List.append_nil, List.filter_filter]
        refine List.filter_congr (fun u _ => ?_)
        by_cases hu : u.file = n
        · simp [hu]
          exact hfn
        · simp [hu]

/-- What one indexing pass leaves for a listed document: untouched page
units when the recorded fingerprint matches, otherwise exactly the fresh
extraction. -/
theorem load_filter_of_mem (folder : String) (files : List PdfFile)
    (I : List PageUnit) (f : PdfFile)
    (hnd : (files.map PdfFile.name).Nodup) (hf : f ∈ files) :
    (load_and_index_pdfs folder files I).filter (fun u => u.file = f.name) =
      if indexedHash I f.name = some f.hash
      then I.filter (fun u => u.file = f.name)
      else process_single_pdf folder f := by
  obtain ⟨l₁, l₂, rfl⟩ := List.append_of_mem hf
  rw [show (l₁ ++ f :: l₂).map PdfFile.name =
    l₁.map PdfFile.name ++ f.name :: l₂.map PdfFile.name by simp] at hnd
  have h1 : f.name ∉ l₁.map PdfFile.name := fun h =>
    (List.nodup_append.mp hnd).2.2 h (List.mem_cons_self _ _)
  have h2 : f.name ∉ l₂.map PdfFile.name :=
    (List.nodup_cons.mp (List.nodup_append.mp hnd).2.1).1
  show ((l₁ ++ f :: l₂).foldl (indexStep folder I) I).filter
      (fun u => u.file = f.name) = _
  rw [List.foldl_append, List.foldl_cons,
    foldl_indexStep_filter_ne folder I l₂ _ f.name h2]
  have hJ : (l₁.foldl (indexStep folder I) I).filter (fun u => u.file = f.name) =
      I.filter (fun u => u.file = f.name) :=
    foldl_indexStep_filter_ne folder I l₁ I f.name h1
  cases hh : indexedHash I f.name with
  | none =>
    have hInone : I.filter (fun u => u.file = f.name) = [] := by
      unfold indexedHash at hh
      rwa [Option.map_eq_none', List.getLast?_eq_none_iff] at hh
    rw [indexStep_none hh, if_neg (by simp), List.filter_append, hJ, hInone,
      process_single_pdf_filter_self, List.nil_append]
  | some hsh =>
    by_cases he : hsh = f.hash
    · subst he
      rw [indexStep_same hh, if_pos rfl]
      exact hJ
    · have hnilJ : (l₁.foldl (indexStep folder I) I).filter
          (fun u => decide (u.file = f.name) && decide (u.file ≠ f.name)) = [] :=
        List.filter_eq_nil_iff.mpr (fun u _ => by
          by_cases hu : u.file = f.name <;> simp [hu])
      rw [indexStep_diff hh he, if_neg (by simp [he]), List.filter_append,
        List.filter_filter, process_single_pdf_filter_self, hnilJ,
        List.nil_append]

theorem foldl_const_of_id {β : Type} {α : Type} :
    ∀ (l : List α) (step : β → α → β) (init : β),
      (∀ a ∈ l, ∀ b, step b a = b) → l.foldl step init = init
  | [], _, _, _ => rfl
  | a :: l, step, init, h => by
    rw [List.foldl_cons, h a (List.mem_cons_self a l) init]
    exact foldl_const_of_id l step init
      (fun b hb c => h b (List.mem_cons_of_mem a hb) c)

/-- C6: re-running the indexing pass on its own output (same folder
listing, no file changed in between) is a no-op: every per-file step
leaves the collection untouched, so the index is byte-for-byte
identical. -/
theorem indexing_idempotent (folder : String) (files : List PdfFile)
    (I : List PageUnit) (hnd : (files.map PdfFile.name).Nodup) :
    load_and_index_pdfs folder files (load_and_index_pdfs folder files I) =
      load_and_index_pdfs folder files I := by
  apply foldl_const_of_id
  intro f hf idx
  have hfilter := load_filter_of_mem folder files I f hnd hf
  have hhash : indexedHash (load_and_index_pdfs folder files I) f.name =
        some f.hash ∨
      (indexedHash (load_and_index_pdfs folder files I) f.name = none ∧
        process_single_pdf folder f = []) := by
    unfold indexedHash
    rw [hfilter]
    by_cases hc : indexedHash I f.name = some f.hash
    · rw [if_pos hc]
      unfold indexedHash at hc
      exact Or.inl hc
    · rw [if_neg hc]
      cases hlast : (process_single_pdf folder f).getLast? with
      | none =>
        exact Or.inr ⟨rfl, List.getLast?_eq_none_iff.mp hlast⟩
      | some u =>
        have := (process_single_pdf_mem (List.mem_of_getLast?_eq_some hlast)).2
        exact Or.inl (by rw [Option.map_some', this])
  rcases hhash with h | ⟨h, hproc⟩
  · exact indexStep_same h
  · rw [indexStep_none h, hproc, List.append_nil]

/-- Closed instance of `indexing_idempotent` on a one-document folder. -/
theorem indexing_idempotent_witness :
    load_and_index_pdfs "my_notes"
        [⟨"a.pdf", ["this page has plenty of text on it"], "h1"⟩]
        (load_and_index_pdfs "my_notes"
          [⟨"a.pdf", ["this page has plenty of text on it"], "h1"⟩] []) =
      load_and_index_pdfs "my_notes"
        [⟨"a.pdf", ["this page has plenty of text on it"], "h1"⟩] [] :=
  indexing_idempotent "my_notes"
    [⟨"a.pdf", ["this page has plenty of text on it"], "h1"⟩] [] (by decide)

/-- C5: after a reindex pass over a folder listing containing `f`, whose
recorded fingerprint `oldh` differs from the current one, the index
holds no unit of that document with the old fingerprint, and the
document's units are exactly the fresh extraction (one unit per
qualifying page, by `min_length_filter`), all carrying the new
fingerprint. -/
theorem change_detection (folder : String) (files : List PdfFile)
    (I : List PageUnit) (f : PdfFile) (oldh : String)
    (hnd : (files.map PdfFile.name).Nodup) (hf : f ∈ files)
    (hold : indexedHash I f.name = some oldh) (hne : oldh ≠ f.hash) :
    (load_and_index_pdfs folder files I).filter
        (fun u => u.file = f.name ∧ u.hash = oldh) = [] ∧
    (load_and_index_pdfs folder files I).filter (fun u => u.file = f.name) =
      process_single_pdf folder f ∧
    ∀ u ∈ process_single_pdf folder f, u.hash = f.hash := by
  have hcond : ¬(indexedHash I f.name = some f.hash) := by
    rw [hold]
    simp [hne]
  have hfil := load_filter_of_mem folder files I f hnd hf
  rw [if_neg hcond] at hfil
  refine ⟨?_, hfil, fun u hu => (process_single_pdf_mem hu).2⟩
  rw [List.filter_eq_nil_iff]
  intro u hu hprop
  have hp : u.file = f.name ∧ u.hash = oldh := by
    simpa using hprop
  have humem : u ∈ (load_and_index_pdfs folder files I).filter
      (fun v => v.file = f.name) :=
    List.mem_filter.mpr ⟨hu, by simp [hp.1]⟩
  rw [hfil] at humem
  exact hne (hp.2.symm.trans (process_single_pdf_mem humem).2)

/-- Closed instance of `change_detection`: one stale unit with
fingerprint "h1" is replaced by the fresh extraction under "h2". -/
theorem change_detection_witness :
    (load_and_index_pdfs "my_notes"
        [⟨"a.pdf", ["this page has plenty of text on it"], "h2"⟩]
        [⟨"a.pdf_p0", "old text", "a.pdf", 0, "my_notes/a.pdf", "h1"⟩]).filter
      (fun u => u.file = "a.pdf" ∧ u.hash = "h1") = [] :=
  (change_detection "my_notes"
    [⟨"a.pdf", ["this page has plenty of text on it"], "h2"⟩]
    [⟨"a.pdf_p0", "old text", "a.pdf", 0, "my_notes/a.pdf", "h1"⟩]
    ⟨"a.pdf", ["this page has plenty of text on it"], "h2"⟩ "h1"
    (by decide) (by decide) (by decide) (by decide)).1

end NotesRag
